import Mathlib

/-!
Verification of the geometry helper module of the Kinegami repository
(file geometryHelpers.py).  Vectors are modelled as triples of real
numbers; numpy and scipy primitives (dot, cross, norm, arctan2, linspace,
Rotation.from_rotvec) are embedded by their exact real-arithmetic
semantics.  Assertion failures in constructors are modelled by Option:
a constructor returns none exactly when one of its asserts fails.
-/

namespace Geo

/-- A 3-component real vector, the shape-(3,) numpy array of the source. -/
@[ext]
structure Vec3 where
  x : ℝ
  y : ℝ
  z : ℝ

def vzero : Vec3 := ⟨0, 0, 0⟩

def add (u v : Vec3) : Vec3 := ⟨u.x + v.x, u.y + v.y, u.z + v.z⟩

def sub (u v : Vec3) : Vec3 := ⟨u.x - v.x, u.y - v.y, u.z - v.z⟩

def neg (v : Vec3) : Vec3 := ⟨-v.x, -v.y, -v.z⟩

def smul (c : ℝ) (v : Vec3) : Vec3 := ⟨c * v.x, c * v.y, c * v.z⟩

/-- Componentwise division of a vector by a scalar, the numpy expression v / c. -/
noncomputable def vdiv (v : Vec3) (c : ℝ) : Vec3 := ⟨v.x / c, v.y / c, v.z / c⟩

/-- numpy.dot on 3-vectors. -/
def dot (u v : Vec3) : ℝ := u.x * v.x + u.y * v.y + u.z * v.z

/-- numpy.cross on 3-vectors. -/
def cross (u v : Vec3) : Vec3 :=
  ⟨u.y * v.z - u.z * v.y, u.z * v.x - u.x * v.z, u.x * v.y - u.y * v.x⟩

/-- numpy.linalg.norm on 3-vectors: the Euclidean length. -/
noncomputable def norm (v : Vec3) : ℝ := Real.sqrt (dot v v)

/-- numpy.arctan2 y x, embedded as the argument of the complex number
x + y i, which has the same value and the same range, the interval
from -pi exclusive to pi inclusive. -/
noncomputable def arctan2 (y x : ℝ) : ℝ := Complex.arg ⟨x, y⟩

-- Basic algebraic facts about the vector operations.

theorem dot_self_nonneg (v : Vec3) : 0 ≤ dot v v := by
  have hx := mul_self_nonneg v.x
  have hy := mul_self_nonneg v.y
  have hz := mul_self_nonneg v.z
  simp only [dot]
  linarith

theorem norm_nonneg (v : Vec3) : 0 ≤ norm v := Real.sqrt_nonneg _

theorem dot_self_eq_zero_iff (v : Vec3) : dot v v = 0 ↔ v = vzero := by
  constructor
  · intro h
    have hx : v.x * v.x = 0 := by
      have hy := mul_self_nonneg v.y
      have hz := mul_self_nonneg v.z
      have hx := mul_self_nonneg v.x
      simp only [dot] at h
      linarith
    have hy : v.y * v.y = 0 := by
      have hz := mul_self_nonneg v.z
      have hxn := mul_self_nonneg v.x
      simp only [dot] at h
      linarith [mul_self_nonneg v.y]
    have hz : v.z * v.z = 0 := by
      simp only [dot] at h
      linarith [mul_self_nonneg v.z]
    have := mul_self_eq_zero.mp hx
    have := mul_self_eq_zero.mp hy
    have := mul_self_eq_zero.mp hz
    apply Vec3.ext <;> simp [vzero, *]
  · intro h
    subst h
    simp [dot, vzero]

theorem norm_eq_zero_iff (v : Vec3) : norm v = 0 ↔ v = vzero := by
  rw [norm, Real.sqrt_eq_zero (dot_self_nonneg v), dot_self_eq_zero_iff]

theorem norm_pos_iff (v : Vec3) : 0 < norm v ↔ v ≠ vzero := by
  constructor
  · intro h hv
    rw [← norm_eq_zero_iff] at hv
    exact absurd hv (ne_of_gt h)
  · intro h
    rcases lt_or_eq_of_le (norm_nonneg v) with hlt | heq
    · exact hlt
    · exact absurd ((norm_eq_zero_iff v).mp heq.symm) h

theorem norm_sq (v : Vec3) : norm v ^ 2 = dot v v :=
  Real.sq_sqrt (dot_self_nonneg v)

theorem vdiv_eq_smul (v : Vec3) (c : ℝ) : vdiv v c = smul (1 / c) v := by
  apply Vec3.ext <;> simp [vdiv, smul] <;> ring

theorem norm_smul (c : ℝ) (v : Vec3) : norm (smul c v) = |c| * norm v := by
  have h : dot (smul c v) (smul c v) = c ^ 2 * dot v v := by
    simp only [dot, smul]; ring
  rw [norm, h, Real.sqrt_mul (sq_nonneg c), Real.sqrt_sq_eq_abs, norm]

/-- The normalized copy of a nonzero vector has unit length. -/
theorem norm_vdiv_self (v : Vec3) (hv : v ≠ vzero) : norm (vdiv v (norm v)) = 1 := by
  have hpos : 0 < norm v := (norm_pos_iff v).mpr hv
  rw [vdiv_eq_smul, norm_smul, abs_of_pos (by positivity : (0:ℝ) < 1 / norm v)]
  field_simp

theorem dot_cross_left (u v : Vec3) : dot (cross u v) u = 0 := by
  simp only [dot, cross]; ring

theorem dot_cross_right (u v : Vec3) : dot (cross u v) v = 0 := by
  simp only [dot, cross]; ring

/-- Scalar triple product identity used for the degenerate branch:
the triple product of u, e, v equals minus the triple product of u, v, e. -/
theorem dot_cross_swap (u e v : Vec3) : dot (cross u e) v = -(dot (cross u v) e) := by
  simp only [dot, cross]; ring

/-- Lagrange identity for the squared length of a cross product. -/
theorem dot_cross_self (u v : Vec3) :
    dot (cross u v) (cross u v) = dot u u * dot v v - dot u v * dot u v := by
  simp only [dot, cross]; ring

-- The embedded functions of geometryHelpers.py.

/-- Helper for the null-space fallback: a unit vector orthogonal to the
nonzero vector w, chosen deterministically by crossing w with a standard
basis vector.  For w = 0 every branch degenerates and the value is junk;
it is only used on nonzero inputs. -/
noncomputable def orthUnit (w : Vec3) : Vec3 :=
  if 0 < norm (cross w ⟨1, 0, 0⟩) then
    vdiv (cross w ⟨1, 0, 0⟩) (norm (cross w ⟨1, 0, 0⟩))
  else
    vdiv (cross w ⟨0, 1, 0⟩) (norm (cross w ⟨0, 1, 0⟩))

/-- Model of the scipy.linalg.null_space call in unitNormalToBoth: the
first column of an orthonormal basis of the null space of the 2 x 3 matrix
with rows u and v.  scipy guarantees only that the columns form an
orthonormal basis of the kernel; which basis vector comes first is decided
inside LAPACK.  We model it by a deterministic unit vector of the kernel:
on the reachable inputs (u and v collinear, the only way the caller takes
this branch) any unit vector orthogonal to the nonzero row works, and when
both rows are zero any unit vector at all is a valid first basis vector. -/
noncomputable def nullSpaceBasisVec (u v : Vec3) : Vec3 :=
  if 0 < norm u then orthUnit u
  else if 0 < norm v then orthUnit v
  else ⟨1, 0, 0⟩

/-- geometryHelpers.unitNormalToBoth: normalized cross product when the
cross product is nonzero, otherwise a null-space basis vector. -/
noncomputable def unitNormalToBoth (u v : Vec3) : Vec3 :=
  if 0 < norm (cross u v) then vdiv (cross u v) (norm (cross u v))
  else nullSpaceBasisVec u v

/-- geometryHelpers.signedAngle: both a and b are normalized, n only when
its norm is positive, then arctan2 of the projected cross product against
the dot product. -/
noncomputable def signedAngle (a b n : Vec3) : ℝ :=
  let a2 := vdiv a (norm a)
  let b2 := vdiv b (norm b)
  let n2 := if 0 < norm n then vdiv n (norm n) else n
  arctan2 (dot (cross a2 b2) n2) (dot a2 b2)

/-- geometryHelpers.wrapAngle: the Python float modulo angle % (2 pi),
which is the floor-based (sign-of-divisor) remainder. -/
noncomputable def wrapAngle (angle : ℝ) : ℝ :=
  angle - 2 * Real.pi * ⌊angle / (2 * Real.pi)⌋

/-- numpy.linspace 0 stop num: num equally spaced samples from 0 to stop,
both endpoints included; one sample gives the start, zero samples give the
empty list. -/
noncomputable def linspace (stop : ℝ) (num : ℕ) : List ℝ :=
  if num = 0 then []
  else if num = 1 then [0]
  else (List.range num).map (fun i : ℕ => stop * (i : ℝ) / ((num : ℝ) - 1))

/-- scipy Rotation.from_rotvec w followed by apply v: rotation of v by the
angle given by the length of w about the axis given by the direction of w
(the Rodrigues formula).  At w = 0 both scalar coefficients degenerate and
the value is v, matching the identity rotation scipy produces there. -/
noncomputable def rotvecApply (w v : Vec3) : Vec3 :=
  add (add (smul (Real.cos (norm w)) v)
        (smul (Real.sin (norm w)) (cross (vdiv w (norm w)) v)))
    (smul ((1 - Real.cos (norm w)) * dot (vdiv w (norm w)) v) (vdiv w (norm w)))

/-- geometryHelpers.Circle3D: the stored fields r, c and n, where n is the
normalized constructor normal.  Construction goes through Circle3D.make. -/
structure Circle3D where
  r : ℝ
  c : Vec3
  n : Vec3

/-- The Circle3D constructor: asserts that the normal has positive length,
then stores the radius, the center and the normalized normal. -/
noncomputable def Circle3D.make (radius : ℝ) (center normal : Vec3) : Option Circle3D :=
  if 0 < norm normal then some ⟨radius, center, vdiv normal (norm normal)⟩ else none

/-- One sample point of Circle3D.interpolate at angle phi:
c + r cos(phi) uhat + r sin(phi) vhat with uhat = unitNormalToBoth n n
and vhat = cross n uhat. -/
noncomputable def Circle3D.samplePoint (circ : Circle3D) (phi : ℝ) : Vec3 :=
  add circ.c
    (add (smul (circ.r * Real.cos phi) (unitNormalToBoth circ.n circ.n))
      (smul (circ.r * Real.sin phi) (cross circ.n (unitNormalToBoth circ.n circ.n))))

/-- Circle3D.interpolate: sample points at the angles linspace 0 (2 pi) count. -/
noncomputable def Circle3D.interpolate (circ : Circle3D) (count : ℕ) : List Vec3 :=
  (linspace (2 * Real.pi) count).map circ.samplePoint

/-- geometryHelpers.Arc3D: the four constructor inputs.  The derived
attributes computed and stored by the Python constructor are fixed
functions of these inputs (the object is immutable) and are embedded as
the definitions below, one per constructor line.  Construction goes
through Arc3D.make, which checks the two asserts. -/
structure Arc3D where
  circleCenter : Vec3
  startPoint : Vec3
  startDir : Vec3
  theta : ℝ

/-- The Arc3D constructor: asserts a positive-length radius vector and
orthogonality of startDir to it within 0.000001, then stores the inputs. -/
noncomputable def Arc3D.make (circleCenter startPoint startDir : Vec3) (theta : ℝ) :
    Option Arc3D :=
  if 0 < norm (sub startPoint circleCenter) ∧
      |dot startDir (sub startPoint circleCenter)| < 1 / 1000000
  then some ⟨circleCenter, startPoint, startDir, theta⟩ else none

/-- Stored field startTangent = startDir / norm(startDir). -/
noncomputable def Arc3D.startTangent (a : Arc3D) : Vec3 := vdiv a.startDir (norm a.startDir)

/-- Stored field centerToStart = startPoint - circleCenter. -/
def Arc3D.centerToStart (a : Arc3D) : Vec3 := sub a.startPoint a.circleCenter

/-- Stored field r = norm(centerToStart). -/
noncomputable def Arc3D.r (a : Arc3D) : ℝ := norm a.centerToStart

/-- Stored field startNormal = - centerToStart / r. -/
noncomputable def Arc3D.startNormal (a : Arc3D) : Vec3 := neg (vdiv a.centerToStart a.r)

/-- Stored field binormal = cross(startTangent, startNormal). -/
noncomputable def Arc3D.binormal (a : Arc3D) : Vec3 := cross a.startTangent a.startNormal

/-- Stored field centerToEnd = Rotation.from_rotvec(theta * binormal).apply(centerToStart). -/
noncomputable def Arc3D.centerToEnd (a : Arc3D) : Vec3 :=
  rotvecApply (smul a.theta a.binormal) a.centerToStart

/-- Stored field endPoint = circleCenter + centerToEnd. -/
noncomputable def Arc3D.endPoint (a : Arc3D) : Vec3 := add a.circleCenter a.centerToEnd

/-- Stored field endNormal = - centerToEnd / r. -/
noncomputable def Arc3D.endNormal (a : Arc3D) : Vec3 := neg (vdiv a.centerToEnd a.r)

/-- Stored field endTangent = cross(endNormal, binormal). -/
noncomputable def Arc3D.endTangent (a : Arc3D) : Vec3 := cross a.endNormal a.binormal

/-- The in-plane basis vector uhat = -startNormal of Arc3D.interpolate. -/
noncomputable def Arc3D.uhat (a : Arc3D) : Vec3 := neg a.startNormal

/-- The in-plane basis vector vhat = cross(binormal, uhat) of Arc3D.interpolate. -/
noncomputable def Arc3D.vhat (a : Arc3D) : Vec3 := cross a.binormal a.uhat

/-- One sample point of Arc3D.interpolate at angle phi:
circleCenter + r cos(phi) uhat + r sin(phi) vhat. -/
noncomputable def Arc3D.samplePoint (a : Arc3D) (phi : ℝ) : Vec3 :=
  add a.circleCenter
    (add (smul (a.r * Real.cos phi) a.uhat) (smul (a.r * Real.sin phi) a.vhat))

/-- Arc3D.interpolate: sample points at the angles linspace 0 theta count. -/
noncomputable def Arc3D.interpolate (a : Arc3D) (count : ℕ) : List Vec3 :=
  (linspace a.theta count).map a.samplePoint

-- Lemmas about the degenerate (null-space) branch.

theorem dot_vdiv_left (u : Vec3) (c : ℝ) (v : Vec3) : dot (vdiv u c) v = dot u v / c := by
  simp only [dot, vdiv]; ring

theorem cross_self (w : Vec3) : cross w w = vzero := by
  apply Vec3.ext <;> simp [cross, vzero] <;> ring

theorem dot_vzero_left (v : Vec3) : dot vzero v = 0 := by simp [dot, vzero]

theorem dot_vzero_right (v : Vec3) : dot v vzero = 0 := by simp [dot, vzero]

/-- Whenever w and v are collinear (zero cross product), the deterministic
orthogonal unit vector built from w is orthogonal to v as well. -/
theorem orthUnit_dot (w v : Vec3) (hcv : cross w v = vzero) : dot (orthUnit w) v = 0 := by
  have key : ∀ e : Vec3, dot (vdiv (cross w e) (norm (cross w e))) v = 0 := by
    intro e
    rw [dot_vdiv_left, dot_cross_swap, hcv, dot_vzero_left]
    simp
  unfold orthUnit
  split <;> apply key

theorem orthUnit_dot_self (w : Vec3) : dot (orthUnit w) w = 0 :=
  orthUnit_dot w w (cross_self w)

theorem orthUnit_norm (w : Vec3) (hw : w ≠ vzero) : norm (orthUnit w) = 1 := by
  unfold orthUnit
  split
  · next h =>
    exact norm_vdiv_self _ ((norm_pos_iff _).mp h)
  · next h =>
    have h0 : norm (cross w ⟨1, 0, 0⟩) = 0 := le_antisymm (not_lt.mp h) (norm_nonneg _)
    have hc : cross w ⟨1, 0, 0⟩ = vzero := (norm_eq_zero_iff _).mp h0
    have hz : w.z = 0 := by
      have := congrArg Vec3.y hc
      simpa [cross, vzero] using this
    have hy : w.y = 0 := by
      have := congrArg Vec3.z hc
      simpa [cross, vzero] using this
    have hx : w.x ≠ 0 := by
      intro hx0
      exact hw (by apply Vec3.ext <;> simp [vzero, hx0, hy, hz])
    apply norm_vdiv_self
    intro hc2
    have := congrArg Vec3.z hc2
    simp [cross, vzero] at this
    exact hx this

theorem nullSpaceBasisVec_spec (u v : Vec3) (hcross : cross u v = vzero) :
    norm (nullSpaceBasisVec u v) = 1 ∧
      dot (nullSpaceBasisVec u v) u = 0 ∧ dot (nullSpaceBasisVec u v) v = 0 := by
  unfold nullSpaceBasisVec
  split
  · next hu =>
    refine ⟨orthUnit_norm u ((norm_pos_iff u).mp hu), orthUnit_dot_self u, ?_⟩
    exact orthUnit_dot u v hcross
  · next hu =>
    have hu0 : u = vzero := (norm_eq_zero_iff u).mp (le_antisymm (not_lt.mp hu) (norm_nonneg u))
    split
    · next hv =>
      refine ⟨orthUnit_norm v ((norm_pos_iff v).mp hv), ?_, orthUnit_dot_self v⟩
      rw [hu0, dot_vzero_right]
    · next hv =>
      have hv0 : v = vzero := (norm_eq_zero_iff v).mp (le_antisymm (not_lt.mp hv) (norm_nonneg v))
      refine ⟨?_, ?_, ?_⟩
      · show norm ⟨1, 0, 0⟩ = 1
        simp [norm, dot, Real.sqrt_one]
      · rw [hu0, dot_vzero_right]
      · rw [hv0, dot_vzero_right]

/-- C1.  For every pair of 3-vectors u and v, unitNormalToBoth u v is a
unit vector orthogonal to both, and whenever the cross product is nonzero
it equals the normalized cross product. -/
theorem claim1_unitNormalToBoth (u v : Vec3) :
    norm (unitNormalToBoth u v) = 1 ∧
      dot (unitNormalToBoth u v) u = 0 ∧ dot (unitNormalToBoth u v) v = 0 ∧
      (cross u v ≠ vzero →
        unitNormalToBoth u v = vdiv (cross u v) (norm (cross u v))) := by
  unfold unitNormalToBoth
  split
  · next h =>
    have hc : cross u v ≠ vzero := (norm_pos_iff _).mp h
    refine ⟨norm_vdiv_self _ hc, ?_, ?_, fun _ => rfl⟩
    · rw [dot_vdiv_left, dot_cross_left]; simp
    · rw [dot_vdiv_left, dot_cross_right]; simp
  · next h =>
    have hc : cross u v = vzero :=
      (norm_eq_zero_iff _).mp (le_antisymm (not_lt.mp h) (norm_nonneg _))
    obtain ⟨h1, h2, h3⟩ := nullSpaceBasisVec_spec u v hc
    exact ⟨h1, h2, h3, fun hne => absurd hc hne⟩

/-- Witness for C1 at u = e1, v = e2: the cross product is nonzero and the
result is the normalized cross product, concretely the vector (0, 0, 1). -/
theorem claim1_witness :
    cross ⟨1, 0, 0⟩ ⟨0, 1, 0⟩ ≠ vzero ∧
      unitNormalToBoth ⟨1, 0, 0⟩ ⟨0, 1, 0⟩ = ⟨0, 0, 1⟩ := by
  have hc : cross ⟨1, 0, 0⟩ ⟨0, 1, 0⟩ = ⟨0, 0, 1⟩ := by
    apply Vec3.ext <;> simp [cross]
  have hne : cross ⟨1, 0, 0⟩ ⟨0, 1, 0⟩ ≠ vzero := by
    rw [hc]; intro h; rw [Vec3.mk.injEq] at h; exact one_ne_zero h.2.2
  refine ⟨hne, ?_⟩
  have := (claim1_unitNormalToBoth ⟨1, 0, 0⟩ ⟨0, 1, 0⟩).2.2.2 hne
  rw [this, hc]
  have hn : norm (⟨0, 0, 1⟩ : Vec3) = 1 := by
    simp [norm, dot, Real.sqrt_one]
  rw [hn]
  apply Vec3.ext <;> simp [vdiv]

-- Further small algebraic lemmas.

theorem sub_eq_vzero_iff (u v : Vec3) : sub u v = vzero ↔ u = v := by
  constructor
  · intro h
    have hx := congrArg Vec3.x h
    have hy := congrArg Vec3.y h
    have hz := congrArg Vec3.z h
    simp [sub, vzero, sub_eq_zero] at hx hy hz
    apply Vec3.ext <;> assumption
  · intro h
    subst h
    apply Vec3.ext <;> simp [sub, vzero]

theorem dot_comm (u v : Vec3) : dot u v = dot v u := by
  simp only [dot]; ring

theorem cross_anticomm (u v : Vec3) : cross v u = neg (cross u v) := by
  apply Vec3.ext <;> simp [cross, neg] <;> ring

theorem dot_neg_left (u v : Vec3) : dot (neg u) v = -(dot u v) := by
  simp only [dot, neg]; ring

theorem vdiv_one (v : Vec3) : vdiv v 1 = v := by
  apply Vec3.ext <;> simp [vdiv]

theorem dot_vdiv_both (a b : Vec3) (p q : ℝ) :
    dot (vdiv a p) (vdiv b q) = dot a b / (p * q) := by
  simp only [dot, vdiv]; ring

theorem norm_unit_dot (a : Vec3) (ha : norm a = 1) : dot a a = 1 := by
  have := norm_sq a
  rw [ha] at this
  simpa using this.symm

-- The range of arctan2 is the range of the complex argument.

theorem arctan2_range (y x : ℝ) : -Real.pi < arctan2 y x ∧ arctan2 y x ≤ Real.pi :=
  ⟨Complex.neg_pi_lt_arg _, Complex.arg_le_pi _⟩

theorem arctan2_zero_nonneg (x : ℝ) (hx : 0 ≤ x) : arctan2 0 x = 0 :=
  Complex.arg_eq_zero_iff.mpr ⟨hx, rfl⟩

theorem arctan2_zero_neg (x : ℝ) (hx : x < 0) : arctan2 0 x = Real.pi :=
  Complex.arg_eq_pi_iff.mpr ⟨hx, rfl⟩

theorem arctan2_zero_one : arctan2 0 1 = 0 :=
  arctan2_zero_nonneg 1 zero_le_one

/-- Negating the first argument of arctan2 conjugates the complex number:
the result is negated except on the half-line where the argument is pi. -/
theorem arctan2_neg_fst (y x : ℝ) :
    arctan2 (-y) x = if arctan2 y x = Real.pi then Real.pi else -(arctan2 y x) := by
  have h : (⟨x, -y⟩ : ℂ) = (starRingEnd ℂ) ⟨x, y⟩ := by
    apply Complex.ext
    · simp
    · simp
  rw [arctan2, arctan2, h, Complex.arg_conj]

-- C7: wrapAngle.

theorem wrapAngle_eq_fract (y : ℝ) :
    wrapAngle y = 2 * Real.pi * Int.fract (y / (2 * Real.pi)) := by
  have hT : (0 : ℝ) < 2 * Real.pi := by positivity
  have h2 : Int.fract (y / (2 * Real.pi)) =
      y / (2 * Real.pi) - ⌊y / (2 * Real.pi)⌋ := (Int.self_sub_floor _).symm
  rw [wrapAngle, h2, mul_sub]
  congr 1
  field_simp

/-- C7.  wrapAngle maps every real angle into the interval from 0
inclusive to 2 pi exclusive, is invariant under adding integer multiples
of 2 pi, and wraps negative angles forward (the mathematical modulo):
for example -pi/2 maps to 3 pi/2. -/
theorem claim7_wrapAngle (x : ℝ) :
    0 ≤ wrapAngle x ∧ wrapAngle x < 2 * Real.pi ∧
      (∀ k : ℤ, wrapAngle (x + 2 * Real.pi * k) = wrapAngle x) ∧
      wrapAngle (-(Real.pi / 2)) = 3 * Real.pi / 2 := by
  have hT : (0 : ℝ) < 2 * Real.pi := by positivity
  refine ⟨?_, ?_, ?_, ?_⟩
  · rw [wrapAngle_eq_fract]
    exact mul_nonneg (le_of_lt hT) (Int.fract_nonneg _)
  · rw [wrapAngle_eq_fract]
    have h1 := Int.fract_lt_one (x / (2 * Real.pi))
    calc 2 * Real.pi * Int.fract (x / (2 * Real.pi)) < 2 * Real.pi * 1 :=
          (mul_lt_mul_of_pos_left h1 hT)
      _ = 2 * Real.pi := mul_one _
  · intro k
    rw [wrapAngle_eq_fract, wrapAngle_eq_fract]
    have harg : (x + 2 * Real.pi * k) / (2 * Real.pi) = x / (2 * Real.pi) + k := by
      field_simp
      ring
    rw [harg, Int.fract_add_int]
  · have hq : (-(Real.pi / 2)) / (2 * Real.pi) = -(1 / 4 : ℝ) := by
      rw [div_eq_iff (ne_of_gt hT)]
      ring
    have hfl : ⌊(-(1 / 4) : ℝ)⌋ = -1 := by
      rw [Int.floor_eq_iff]
      norm_num
    rw [wrapAngle, hq, hfl]
    push_cast
    ring

-- C2: the Arc3D construction guard.

theorem arc_make_none_iff (circleCenter startPoint startDir : Vec3) (theta : ℝ) :
    Arc3D.make circleCenter startPoint startDir theta = none ↔
      ¬(0 < norm (sub startPoint circleCenter) ∧
        |dot startDir (sub startPoint circleCenter)| < 1 / 1000000) := by
  unfold Arc3D.make
  split
  · next h => exact iff_of_false (by simp) (not_not_intro h)
  · next h => exact iff_of_true rfl h

/-- C2.  Arc3D construction fails exactly on the geometrically invalid
inputs: the start point coinciding with the center, or the start direction
not orthogonal to the radius vector within the 0.000001 tolerance; in
particular the parallel example of the spec fails for every sweep angle. -/
theorem claim2_arc_make (circleCenter startPoint startDir : Vec3) (theta : ℝ) :
    (Arc3D.make circleCenter startPoint startDir theta = none ↔
      startPoint = circleCenter ∨
        1 / 1000000 ≤ |dot startDir (sub startPoint circleCenter)|) ∧
      Arc3D.make ⟨0, 0, 0⟩ ⟨1, 0, 0⟩ ⟨1, 0, 0⟩ theta = none := by
  constructor
  · rw [arc_make_none_iff, not_and_or]
    constructor
    · rintro (h | h)
      · left
        rw [norm_pos_iff, not_ne_iff, sub_eq_vzero_iff] at h
        exact h
      · right
        exact not_lt.mp h
    · rintro (h | h)
      · left
        rw [norm_pos_iff, not_ne_iff, sub_eq_vzero_iff]
        exact h
      · right
        exact not_lt.mpr h
  · rw [arc_make_none_iff]
    rintro ⟨-, habs⟩
    have hsub : sub ⟨1, 0, 0⟩ ⟨0, 0, 0⟩ = (⟨1, 0, 0⟩ : Vec3) := by
      apply Vec3.ext <;> simp [sub]
    rw [hsub] at habs
    have hd : dot ⟨1, 0, 0⟩ ⟨1, 0, 0⟩ = (1 : ℝ) := by simp [dot]
    rw [hd] at habs
    norm_num at habs

-- C9: signedAngle with a zero reference normal.

/-- C9.  With n = 0, signedAngle skips normalizing n, the projected cross
product term vanishes, and the value collapses to 0 for a nonnegative dot
product and pi for a negative one; no error is raised. -/
theorem claim9_signedAngle_zero_normal (a b : Vec3) (ha : a ≠ vzero) (hb : b ≠ vzero) :
    (0 ≤ dot a b → signedAngle a b vzero = 0) ∧
      (dot a b < 0 → signedAngle a b vzero = Real.pi) := by
  have hna : 0 < norm a := (norm_pos_iff a).mpr ha
  have hnb : 0 < norm b := (norm_pos_iff b).mpr hb
  have hn0 : norm vzero = 0 := by simp [norm, dot, vzero]
  have key : signedAngle a b vzero = arctan2 0 (dot a b / (norm a * norm b)) := by
    unfold signedAngle
    rw [if_neg (by rw [hn0]; exact lt_irrefl 0)]
    show arctan2 (dot (cross (vdiv a (norm a)) (vdiv b (norm b))) vzero)
        (dot (vdiv a (norm a)) (vdiv b (norm b))) = _
    rw [dot_vzero_right, dot_vdiv_both]
  rw [key]
  constructor
  · intro h
    exact arctan2_zero_nonneg _ (div_nonneg h (by positivity))
  · intro h
    exact arctan2_zero_neg _ (div_neg_of_neg_of_pos h (by positivity))

/-- Witness for C9 at a = e1, b = e2: both nonzero, nonnegative dot
product, and the signed angle about the zero normal is 0. -/
theorem claim9_witness :
    (⟨1, 0, 0⟩ : Vec3) ≠ vzero ∧ (⟨0, 1, 0⟩ : Vec3) ≠ vzero ∧
      signedAngle ⟨1, 0, 0⟩ ⟨0, 1, 0⟩ vzero = 0 := by
  have h1 : (⟨1, 0, 0⟩ : Vec3) ≠ vzero := by
    intro h
    rw [vzero, Vec3.mk.injEq] at h
    exact one_ne_zero h.1
  have h2 : (⟨0, 1, 0⟩ : Vec3) ≠ vzero := by
    intro h
    rw [vzero, Vec3.mk.injEq] at h
    exact one_ne_zero h.2.1
  refine ⟨h1, h2, ?_⟩
  exact (claim9_signedAngle_zero_normal ⟨1, 0, 0⟩ ⟨0, 1, 0⟩ h1 h2).1 (by simp [dot])

-- C8: algebraic properties of signedAngle on unit vectors.

theorem signedAngle_unit (a b n : Vec3) (ha : norm a = 1) (hb : norm b = 1)
    (hn : norm n = 1) :
    signedAngle a b n = arctan2 (dot (cross a b) n) (dot a b) := by
  unfold signedAngle
  rw [ha, hb, hn, if_pos one_pos, vdiv_one, vdiv_one, vdiv_one]

theorem norm_e1 : norm (⟨1, 0, 0⟩ : Vec3) = 1 := by
  simp [norm, dot]

theorem norm_neg_e1 : norm (⟨-1, 0, 0⟩ : Vec3) = 1 := by
  simp [norm, dot]

theorem norm_e2 : norm (⟨0, 1, 0⟩ : Vec3) = 1 := by
  simp [norm, dot]

theorem norm_e3 : norm (⟨0, 0, 1⟩ : Vec3) = 1 := by
  simp [norm, dot]

/-- C8 counterexample.  At the antipodal unit pair a = e1, b = -e1 with
unit normal e3, the signed angle is pi in both directions, so negating
signedAngle a b n does not yield signedAngle b a n. -/
theorem claim8_counterexample :
    norm (⟨1, 0, 0⟩ : Vec3) = 1 ∧ norm (⟨-1, 0, 0⟩ : Vec3) = 1 ∧
      norm (⟨0, 0, 1⟩ : Vec3) = 1 ∧
      signedAngle ⟨1, 0, 0⟩ ⟨-1, 0, 0⟩ ⟨0, 0, 1⟩ = Real.pi ∧
      signedAngle ⟨-1, 0, 0⟩ ⟨1, 0, 0⟩ ⟨0, 0, 1⟩ = Real.pi ∧
      -(signedAngle ⟨1, 0, 0⟩ ⟨-1, 0, 0⟩ ⟨0, 0, 1⟩) ≠
        signedAngle ⟨-1, 0, 0⟩ ⟨1, 0, 0⟩ ⟨0, 0, 1⟩ := by
  have key : ∀ u v : Vec3, norm u = 1 → norm v = 1 → dot u v = -1 →
      cross u v = vzero → signedAngle u v ⟨0, 0, 1⟩ = Real.pi := by
    intro u v hu hv hd hc
    rw [signedAngle_unit u v _ hu hv norm_e3, hc, dot_vzero_left, hd]
    exact arctan2_zero_neg _ (by norm_num)
  have hc1 : cross ⟨1, 0, 0⟩ ⟨-1, 0, 0⟩ = vzero := by
    apply Vec3.ext <;> simp [cross, vzero]
  have hc2 : cross ⟨-1, 0, 0⟩ ⟨1, 0, 0⟩ = vzero := by
    apply Vec3.ext <;> simp [cross, vzero]
  have h1 := key _ _ norm_e1 norm_neg_e1 (by simp [dot]) hc1
  have h2 := key _ _ norm_neg_e1 norm_e1 (by simp [dot]) hc2
  refine ⟨norm_e1, norm_neg_e1, norm_e3, h1, h2, ?_⟩
  rw [h1, h2]
  intro habs
  have : Real.pi = 0 := by linarith
  exact Real.pi_ne_zero this

/-- C8 as amended.  For unit vectors a, b, n: the self angle is 0, the
value lies in the interval from -pi exclusive to pi inclusive, and
negating signedAngle a b n yields signedAngle b a n except when
signedAngle a b n equals pi, in which case signedAngle b a n is pi too. -/
theorem claim8_amended (a b n : Vec3) (ha : norm a = 1) (hb : norm b = 1)
    (hn : norm n = 1) :
    signedAngle a a n = 0 ∧
      (-Real.pi < signedAngle a b n ∧ signedAngle a b n ≤ Real.pi) ∧
      (signedAngle a b n ≠ Real.pi → signedAngle b a n = -(signedAngle a b n)) ∧
      (signedAngle a b n = Real.pi → signedAngle b a n = Real.pi) := by
  have hswap : signedAngle b a n = arctan2 (-(dot (cross a b) n)) (dot a b) := by
    rw [signedAngle_unit b a n hb ha hn, cross_anticomm, dot_neg_left, dot_comm b a]
  refine ⟨?_, ?_, ?_, ?_⟩
  · rw [signedAngle_unit a a n ha ha hn, cross_self, dot_vzero_left, norm_unit_dot a ha]
    exact arctan2_zero_one
  · rw [signedAngle_unit a b n ha hb hn]
    exact arctan2_range _ _
  · intro h
    rw [signedAngle_unit a b n ha hb hn] at h ⊢
    rw [hswap, arctan2_neg_fst, if_neg h]
  · intro h
    rw [signedAngle_unit a b n ha hb hn] at h
    rw [hswap, arctan2_neg_fst, if_pos h]

/-- Witness for C8 as amended at the unit vectors e1, e2, e3: the self
angle at e1 is 0. -/
theorem claim8_witness :
    norm (⟨1, 0, 0⟩ : Vec3) = 1 ∧ norm (⟨0, 1, 0⟩ : Vec3) = 1 ∧
      norm (⟨0, 0, 1⟩ : Vec3) = 1 ∧
      signedAngle ⟨1, 0, 0⟩ ⟨1, 0, 0⟩ ⟨0, 0, 1⟩ = 0 :=
  ⟨norm_e1, norm_e2, norm_e3,
    (claim8_amended ⟨1, 0, 0⟩ ⟨0, 1, 0⟩ ⟨0, 0, 1⟩ norm_e1 norm_e2 norm_e3).1⟩

-- Lemmas about linspace and sampled lists.

theorem norm_vzero : norm vzero = 0 := by simp [norm, dot, vzero]

theorem linspace_eq (stop : ℝ) (num : ℕ) (h : 2 ≤ num) :
    linspace stop num =
      (List.range num).map (fun i : ℕ => stop * (i : ℝ) / ((num : ℝ) - 1)) := by
  unfold linspace
  rw [if_neg (by omega), if_neg (by omega)]

theorem linspace_length (stop : ℝ) (num : ℕ) : (linspace stop num).length = num := by
  unfold linspace
  split
  · next h => simp [h]
  · next h =>
    split
    · next h1 => simp [h1]
    · rw [List.length_map, List.length_range]

theorem range_map_head {α : Type} (f : ℕ → α) (num : ℕ) (h : 1 ≤ num) :
    ((List.range num).map f).head? = some (f 0) := by
  obtain ⟨m, rfl⟩ : ∃ m, num = m + 1 := ⟨num - 1, by omega⟩
  rw [List.range_succ_eq_map]
  simp

theorem range_map_getLast {α : Type} (f : ℕ → α) (num : ℕ) (h : 1 ≤ num) :
    ((List.range num).map f).getLast? = some (f (num - 1)) := by
  obtain ⟨m, rfl⟩ : ∃ m, num = m + 1 := ⟨num - 1, by omega⟩
  rw [List.range_succ, List.map_append]
  simp

-- Bilinearity lemmas for sample-point geometry.

theorem sub_add_cancel_vec (c w : Vec3) : sub (add c w) c = w := by
  apply Vec3.ext <;> simp [sub, add]

theorem dot_combo_self (p q : ℝ) (u v : Vec3) :
    dot (add (smul p u) (smul q v)) (add (smul p u) (smul q v)) =
      p ^ 2 * dot u u + 2 * p * q * dot u v + q ^ 2 * dot v v := by
  simp only [dot, add, smul]; ring

theorem dot_combo_right (p q : ℝ) (u v w : Vec3) :
    dot (add (smul p u) (smul q v)) w = p * dot u w + q * dot v w := by
  simp only [dot, add, smul]; ring

theorem dot_smul_right (u : Vec3) (c : ℝ) (v : Vec3) :
    dot u (smul c v) = c * dot u v := by
  simp only [dot, smul]; ring

theorem smul_norm_vdiv (w : Vec3) (hw : w ≠ vzero) :
    smul (norm w) (vdiv w (norm w)) = w := by
  have hne : norm w ≠ 0 := ne_of_gt ((norm_pos_iff w).mpr hw)
  apply Vec3.ext <;> simp [smul, vdiv] <;> field_simp

/-- On the degenerate call unitNormalToBoth n n the cross product branch is
never taken and the result is the modelled null-space basis vector, a unit
vector orthogonal to n whenever n is nonzero. -/
theorem unitNormalToBoth_self_spec (n : Vec3) :
    norm (unitNormalToBoth n n) = 1 ∧ dot (unitNormalToBoth n n) n = 0 := by
  have h0 : norm (cross n n) = 0 := by rw [cross_self]; exact norm_vzero
  have he : unitNormalToBoth n n = nullSpaceBasisVec n n := by
    unfold unitNormalToBoth
    rw [if_neg (by rw [h0]; exact lt_irrefl 0)]
  rw [he]
  obtain ⟨h1, h2, -⟩ := nullSpaceBasisVec_spec n n (cross_self n)
  exact ⟨h1, h2⟩

/-- Every Circle3D sample point lies at distance equal to the absolute
radius from the center and in the plane through the center orthogonal to
the stored unit normal. -/
theorem circle_sample_geometry (circ : Circle3D) (hn1 : norm circ.n = 1) (phi : ℝ) :
    norm (sub (circ.samplePoint phi) circ.c) = |circ.r| ∧
      dot (sub (circ.samplePoint phi) circ.c) circ.n = 0 := by
  obtain ⟨hu1, hudot⟩ := unitNormalToBoth_self_spec circ.n
  have hsub : sub (circ.samplePoint phi) circ.c =
      add (smul (circ.r * Real.cos phi) (unitNormalToBoth circ.n circ.n))
        (smul (circ.r * Real.sin phi) (cross circ.n (unitNormalToBoth circ.n circ.n))) := by
    unfold Circle3D.samplePoint
    exact sub_add_cancel_vec _ _
  have hnn : dot circ.n circ.n = 1 := norm_unit_dot circ.n hn1
  have huu : dot (unitNormalToBoth circ.n circ.n) (unitNormalToBoth circ.n circ.n) = 1 :=
    norm_unit_dot _ hu1
  have hvv : dot (cross circ.n (unitNormalToBoth circ.n circ.n))
      (cross circ.n (unitNormalToBoth circ.n circ.n)) = 1 := by
    rw [dot_cross_self, hnn, huu, dot_comm circ.n _, hudot]
    ring
  have huv : dot (unitNormalToBoth circ.n circ.n)
      (cross circ.n (unitNormalToBoth circ.n circ.n)) = 0 := by
    rw [dot_comm]
    exact dot_cross_right _ _
  constructor
  · rw [hsub, norm, dot_combo_self, huu, hvv, huv]
    have : (circ.r * Real.cos phi) ^ 2 * 1 + 2 * (circ.r * Real.cos phi) *
        (circ.r * Real.sin phi) * 0 + (circ.r * Real.sin phi) ^ 2 * 1 = circ.r ^ 2 := by
      have hpy := Real.sin_sq_add_cos_sq phi
      nlinarith [hpy]
    rw [this, Real.sqrt_sq_eq_abs]
  · rw [hsub, dot_combo_right, hudot, dot_cross_left]
    ring

/-- Sampling a circle at angle 2 pi gives the same point as at angle 0. -/
theorem circle_sample_closed (circ : Circle3D) :
    circ.samplePoint (2 * Real.pi) = circ.samplePoint 0 := by
  unfold Circle3D.samplePoint
  rw [Real.cos_two_pi, Real.sin_two_pi, Real.cos_zero, Real.sin_zero]

theorem circle_make_elim (radius : ℝ) (center normal : Vec3) (circ : Circle3D)
    (hmk : Circle3D.make radius center normal = some circ) :
    0 < norm normal ∧ circ = ⟨radius, center, vdiv normal (norm normal)⟩ := by
  unfold Circle3D.make at hmk
  split at hmk
  · next h => exact ⟨h, (Option.some.inj hmk).symm⟩
  · next h => exact absurd hmk (by simp)

/-- C6 counterexample.  The constructor accepts the radius -1 with a unit
normal; every sample of that circle is at distance 1 from the center, and
1 is not -1 (the gap is 2, beyond any tolerance), so the sampled distance
does not equal the radius. -/
theorem claim6_counterexample :
    Circle3D.make (-1) vzero ⟨0, 0, 1⟩ = some ⟨-1, vzero, ⟨0, 0, 1⟩⟩ ∧
      Circle3D.interpolate ⟨-1, vzero, ⟨0, 0, 1⟩⟩ 2 = [⟨0, -1, 0⟩, ⟨0, -1, 0⟩] ∧
      norm (sub ⟨0, -1, 0⟩ vzero) = 1 ∧
      |(1 : ℝ) - (-1)| = 2 ∧ ((1 : ℝ) ≠ -1) := by
  have hcr : cross ⟨0, 0, 1⟩ ⟨1, 0, 0⟩ = (⟨0, 1, 0⟩ : Vec3) := by
    apply Vec3.ext <;> simp [cross]
  have ho : orthUnit ⟨0, 0, 1⟩ = ⟨0, 1, 0⟩ := by
    unfold orthUnit
    rw [hcr, norm_e2, if_pos one_pos, vdiv_one]
  have hns : nullSpaceBasisVec ⟨0, 0, 1⟩ ⟨0, 0, 1⟩ = ⟨0, 1, 0⟩ := by
    unfold nullSpaceBasisVec
    rw [norm_e3, if_pos one_pos, ho]
  have h0 : norm (cross (⟨0, 0, 1⟩ : Vec3) ⟨0, 0, 1⟩) = 0 := by
    rw [cross_self]; exact norm_vzero
  have hu : unitNormalToBoth ⟨0, 0, 1⟩ ⟨0, 0, 1⟩ = ⟨0, 1, 0⟩ := by
    unfold unitNormalToBoth
    rw [if_neg (by rw [h0]; exact lt_irrefl 0), hns]
  have hmk : Circle3D.make (-1) vzero ⟨0, 0, 1⟩ = some ⟨-1, vzero, ⟨0, 0, 1⟩⟩ := by
    unfold Circle3D.make
    rw [norm_e3, if_pos one_pos, vdiv_one]
  have hsp0 : Circle3D.samplePoint ⟨-1, vzero, ⟨0, 0, 1⟩⟩ 0 = ⟨0, -1, 0⟩ := by
    show add vzero
        (add (smul (-1 * Real.cos 0) (unitNormalToBoth ⟨0, 0, 1⟩ ⟨0, 0, 1⟩))
          (smul (-1 * Real.sin 0) (cross ⟨0, 0, 1⟩ (unitNormalToBoth ⟨0, 0, 1⟩ ⟨0, 0, 1⟩)))) =
      ⟨0, -1, 0⟩
    rw [hu]
    apply Vec3.ext <;> simp [add, smul, cross, vzero]
  have hsp2 : Circle3D.samplePoint ⟨-1, vzero, ⟨0, 0, 1⟩⟩ (2 * Real.pi) = ⟨0, -1, 0⟩ := by
    rw [circle_sample_closed, hsp0]
  have hlin : linspace (2 * Real.pi) 2 = [0, 2 * Real.pi] := by
    rw [linspace_eq _ 2 (le_refl 2), show List.range 2 = [0, 1] from rfl]
    simp only [List.map_cons, List.map_nil]
    norm_num
  refine ⟨hmk, ?_, ?_, by norm_num, by norm_num⟩
  · show (linspace (2 * Real.pi) 2).map (Circle3D.samplePoint ⟨-1, vzero, ⟨0, 0, 1⟩⟩) = _
    rw [hlin]
    simp only [List.map_cons, List.map_nil, hsp0, hsp2]
  · have : sub ⟨0, -1, 0⟩ vzero = (⟨0, -1, 0⟩ : Vec3) := by
      apply Vec3.ext <;> simp [sub, vzero]
    rw [this]
    simp [norm, dot]

/-- C6 as amended.  For every circle accepted by the constructor, every
sample of interpolate lies at distance equal to the absolute value of the
radius from the center (the radius is not validated and may be negative)
and in the plane through the center orthogonal to the given normal, and
for two or more samples the first and last sample coincide. -/
theorem claim6_amended (radius : ℝ) (center normal : Vec3) (circ : Circle3D)
    (hmk : Circle3D.make radius center normal = some circ) :
    (∀ count : ℕ, ∀ p ∈ circ.interpolate count,
        norm (sub p center) = |radius| ∧ dot (sub p center) normal = 0) ∧
      ∀ count : ℕ, 2 ≤ count →
        (circ.interpolate count).head? = (circ.interpolate count).getLast? := by
  obtain ⟨hpos, rfl⟩ := circle_make_elim radius center normal circ hmk
  have hnne : normal ≠ vzero := (norm_pos_iff normal).mp hpos
  have hn1 : norm (vdiv normal (norm normal)) = 1 := norm_vdiv_self normal hnne
  constructor
  · intro count p hp
    obtain ⟨phi, -, rfl⟩ := List.mem_map.mp hp
    obtain ⟨hdist, hplane⟩ :=
      circle_sample_geometry ⟨radius, center, vdiv normal (norm normal)⟩ hn1 phi
    refine ⟨hdist, ?_⟩
    have key : ∀ w : Vec3, dot w (vdiv normal (norm normal)) = 0 → dot w normal = 0 := by
      intro w hw
      have h1 : dot w normal = dot w (smul (norm normal) (vdiv normal (norm normal))) := by
        rw [smul_norm_vdiv normal hnne]
      rw [h1, dot_smul_right, hw, mul_zero]
    exact key _ hplane
  · intro count hc
    show ((linspace (2 * Real.pi) count).map _).head? =
      ((linspace (2 * Real.pi) count).map _).getLast?
    rw [linspace_eq _ _ hc, List.map_map]
    rw [range_map_head _ _ (by omega), range_map_getLast _ _ (by omega)]
    have hne : ((count : ℝ) - 1) ≠ 0 := by
      have h2 : (2 : ℝ) ≤ (count : ℝ) := by exact_mod_cast hc
      linarith
    have h0 : 2 * Real.pi * ((0 : ℕ) : ℝ) / ((count : ℝ) - 1) = 0 := by
      norm_num
    have hlast : 2 * Real.pi * (((count - 1 : ℕ)) : ℝ) / ((count : ℝ) - 1) = 2 * Real.pi := by
      rw [Nat.cast_sub (by omega), Nat.cast_one]
      field_simp
    simp only [Function.comp]
    rw [h0, hlast, circle_sample_closed]

/-- Witness for C6 as amended at radius 2, center 0, normal e3: the first
and last of 2 samples coincide. -/
theorem claim6_witness :
    Circle3D.make 2 vzero ⟨0, 0, 1⟩ = some ⟨2, vzero, ⟨0, 0, 1⟩⟩ ∧
      (Circle3D.interpolate ⟨2, vzero, ⟨0, 0, 1⟩⟩ 2).head? =
        (Circle3D.interpolate ⟨2, vzero, ⟨0, 0, 1⟩⟩ 2).getLast? := by
  have hmk : Circle3D.make 2 vzero ⟨0, 0, 1⟩ = some ⟨2, vzero, ⟨0, 0, 1⟩⟩ := by
    unfold Circle3D.make
    rw [norm_e3, if_pos one_pos, vdiv_one]
  refine ⟨hmk, ?_⟩
  exact (claim6_amended 2 vzero ⟨0, 0, 1⟩ ⟨2, vzero, ⟨0, 0, 1⟩⟩ hmk).2 2 (le_refl 2)

/-- C10.  The Circle3D constructor checks only the normal: with the zero
normal it fails, and with any nonzero normal it succeeds for every radius,
including zero and negative ones, storing a unit normal; interpolate then
returns count points, each at distance equal to the absolute radius from
the center. -/
theorem claim10_circle_any_radius (radius : ℝ) (center normal : Vec3)
    (hn : normal ≠ vzero) :
    Circle3D.make radius center vzero = none ∧
      ∃ circ : Circle3D, Circle3D.make radius center normal = some circ ∧
        norm circ.n = 1 ∧
        ∀ count : ℕ, (circ.interpolate count).length = count ∧
          ∀ p ∈ circ.interpolate count, norm (sub p center) = |radius| := by
  constructor
  · unfold Circle3D.make
    rw [if_neg (by rw [norm_vzero]; exact lt_irrefl 0)]
  · refine ⟨⟨radius, center, vdiv normal (norm normal)⟩, ?_, norm_vdiv_self normal hn, ?_⟩
    · unfold Circle3D.make
      rw [if_pos ((norm_pos_iff normal).mpr hn)]
    · intro count
      constructor
      · show ((linspace (2 * Real.pi) count).map _).length = count
        rw [List.length_map, linspace_length]
      · intro p hp
        obtain ⟨phi, -, rfl⟩ := List.mem_map.mp hp
        exact (circle_sample_geometry ⟨radius, center, vdiv normal (norm normal)⟩
          (norm_vdiv_self normal hn) phi).1

/-- Witness for C10 at radius -2, center 0, normal e3. -/
theorem claim10_witness :
    (⟨0, 0, 1⟩ : Vec3) ≠ vzero ∧
      (Circle3D.make (-2) vzero vzero = none ∧
        ∃ circ : Circle3D, Circle3D.make (-2) vzero ⟨0, 0, 1⟩ = some circ ∧
          norm circ.n = 1 ∧
          ∀ count : ℕ, (circ.interpolate count).length = count ∧
            ∀ p ∈ circ.interpolate count, norm (sub p vzero) = |(-2 : ℝ)|) := by
  have hne : (⟨0, 0, 1⟩ : Vec3) ≠ vzero := by
    intro h
    rw [vzero, Vec3.mk.injEq] at h
    exact one_ne_zero h.2.2
  exact ⟨hne, claim10_circle_any_radius (-2) vzero ⟨0, 0, 1⟩ hne⟩

-- Arc3D geometry: the Rodrigues rotation of the radius vector.

theorem dot_neg_right (u v : Vec3) : dot u (neg v) = -(dot u v) := by
  simp only [dot, neg]; ring

theorem dot_smul_left (c : ℝ) (u v : Vec3) : dot (smul c u) v = c * dot u v := by
  simp only [dot, smul]; ring

theorem cross_smul_left (c : ℝ) (u v : Vec3) :
    cross (smul c u) v = smul c (cross u v) := by
  apply Vec3.ext <;> simp [cross, smul] <;> ring

theorem cross_vdiv_left (u : Vec3) (c : ℝ) (v : Vec3) :
    cross (vdiv u c) v = vdiv (cross u v) c := by
  apply Vec3.ext <;> simp [cross, vdiv] <;> ring

theorem smul_smul_vec (a c : ℝ) (v : Vec3) : smul a (smul c v) = smul (a * c) v := by
  apply Vec3.ext <;> simp [smul] <;> ring

theorem norm_neg_vec (v : Vec3) : norm (neg v) = norm v := by
  have h : dot (neg v) (neg v) = dot v v := by simp only [dot, neg]; ring
  rw [norm, h, norm]

/-- Applying the rotation-vector theta * b for a unit axis b to a vector v
orthogonal to b gives the planar rotation cos(theta) v + sin(theta) (b x v).
This is the exact content of the from_rotvec/apply pair used by Arc3D when
the binormal is exactly unit. -/
theorem rotvec_formula (b v : Vec3) (theta : ℝ) (hb : norm b = 1) (hbv : dot b v = 0) :
    rotvecApply (smul theta b) v =
      add (smul (Real.cos theta) v) (smul (Real.sin theta) (cross b v)) := by
  by_cases h0 : theta = 0
  · subst h0
    have hz : smul 0 b = vzero := by apply Vec3.ext <;> simp [smul, vzero]
    rw [hz]
    unfold rotvecApply
    rw [norm_vzero]
    apply Vec3.ext <;> simp [add, smul, cross, vdiv, vzero, dot]
  · have hw : norm (smul theta b) = |theta| := by rw [norm_smul, hb, mul_one]
    have habs : (0 : ℝ) < |theta| := abs_pos.mpr h0
    unfold rotvecApply
    rw [hw]
    have hk : vdiv (smul theta b) |theta| = smul (theta / |theta|) b := by
      apply Vec3.ext <;> simp [vdiv, smul] <;> ring
    rw [hk, cross_smul_left, smul_smul_vec, dot_smul_left, hbv, mul_zero, mul_zero]
    have hcos : Real.cos |theta| = Real.cos theta := Real.cos_abs theta
    have hsin : Real.sin |theta| * (theta / |theta|) = Real.sin theta := by
      rcases lt_or_gt_of_ne h0 with h | h
      · rw [abs_of_neg h, Real.sin_neg]
        field_simp
      · rw [abs_of_pos h]
        field_simp
    rw [hcos, hsin]
    apply Vec3.ext <;> simp [add, smul]

/-- For an arc whose start direction is nonzero and exactly orthogonal to
the radius vector, and whose start point differs from the center, the
stored binormal is a unit vector orthogonal to the radius vector. -/
theorem arc_binormal_spec (a : Arc3D)
    (hsp : a.startPoint ≠ a.circleCenter)
    (hsd : a.startDir ≠ vzero)
    (horth : dot a.startDir (sub a.startPoint a.circleCenter) = 0) :
    norm a.binormal = 1 ∧ dot a.binormal a.centerToStart = 0 := by
  have hc2s : a.centerToStart ≠ vzero := by
    intro h
    exact hsp ((sub_eq_vzero_iff _ _).mp h)
  have hrpos : 0 < a.r := (norm_pos_iff _).mpr hc2s
  have hrne : a.r ≠ 0 := ne_of_gt hrpos
  have ht1 : norm a.startTangent = 1 := norm_vdiv_self a.startDir hsd
  have hn1 : norm a.startNormal = 1 := by
    rw [Arc3D.startNormal, norm_neg_vec]
    exact norm_vdiv_self a.centerToStart hc2s
  have htn : dot a.startTangent a.startNormal = 0 := by
    rw [Arc3D.startTangent, Arc3D.startNormal, dot_neg_right, dot_vdiv_both]
    have h1 : dot a.startDir a.centerToStart = 0 := horth
    rw [h1]
    simp
  have hbb : dot a.binormal a.binormal = 1 := by
    rw [Arc3D.binormal, dot_cross_self, norm_unit_dot _ ht1, norm_unit_dot _ hn1, htn]
    ring
  constructor
  · rw [norm, hbb, Real.sqrt_one]
  · have hc2sn : a.centerToStart = smul (-a.r) a.startNormal := by
      rw [Arc3D.startNormal]
      apply Vec3.ext <;> simp [smul, neg, vdiv] <;> field_simp
    rw [hc2sn, dot_smul_right, Arc3D.binormal, dot_cross_right, mul_zero]

/-- For an arc satisfying the exact-orthogonality preconditions, the
rotated radius vector equals the planar combination of cos and sin. -/
theorem arc_centerToEnd_formula (a : Arc3D)
    (hsp : a.startPoint ≠ a.circleCenter)
    (hsd : a.startDir ≠ vzero)
    (horth : dot a.startDir (sub a.startPoint a.circleCenter) = 0) :
    a.centerToEnd = add (smul (Real.cos a.theta) a.centerToStart)
      (smul (Real.sin a.theta) (cross a.binormal a.centerToStart)) := by
  obtain ⟨hb1, hbc⟩ := arc_binormal_spec a hsp hsd horth
  rw [Arc3D.centerToEnd]
  exact rotvec_formula a.binormal a.centerToStart a.theta hb1 hbc

theorem arc_uhat_eq (a : Arc3D) : a.uhat = vdiv a.centerToStart a.r := by
  rw [Arc3D.uhat, Arc3D.startNormal]
  apply Vec3.ext <;> simp [neg, vdiv]

/-- The first interpolation sample (angle 0) is exactly the start point. -/
theorem arc_sample_zero (a : Arc3D) (hsp : a.startPoint ≠ a.circleCenter) :
    a.samplePoint 0 = a.startPoint := by
  have hc2s : a.centerToStart ≠ vzero := by
    intro h
    exact hsp ((sub_eq_vzero_iff _ _).mp h)
  have hrne : a.r ≠ 0 := ne_of_gt ((norm_pos_iff _).mpr hc2s)
  unfold Arc3D.samplePoint
  rw [arc_uhat_eq, Real.cos_zero, Real.sin_zero, mul_zero, mul_one]
  have hx : smul a.r (vdiv a.centerToStart a.r) = a.centerToStart := by
    apply Vec3.ext <;> simp [smul, vdiv] <;> field_simp
  rw [hx]
  show add a.circleCenter (add a.centerToStart (smul 0 a.vhat)) = a.startPoint
  rw [Arc3D.centerToStart]
  apply Vec3.ext <;> simp [add, smul, sub]

/-- The sample at angle theta is exactly the derived end point, for an arc
with exactly orthogonal nonzero start direction. -/
theorem arc_sample_theta (a : Arc3D)
    (hsp : a.startPoint ≠ a.circleCenter)
    (hsd : a.startDir ≠ vzero)
    (horth : dot a.startDir (sub a.startPoint a.circleCenter) = 0) :
    a.samplePoint a.theta = a.endPoint := by
  have hc2s : a.centerToStart ≠ vzero := by
    intro h
    exact hsp ((sub_eq_vzero_iff _ _).mp h)
  have hrne : a.r ≠ 0 := ne_of_gt ((norm_pos_iff _).mpr hc2s)
  rw [Arc3D.endPoint, arc_centerToEnd_formula a hsp hsd horth]
  unfold Arc3D.samplePoint
  rw [arc_uhat_eq]
  have hvhat : a.vhat = vdiv (cross a.binormal a.centerToStart) a.r := by
    rw [Arc3D.vhat, arc_uhat_eq]
    have h1 : vdiv a.centerToStart a.r = smul (1 / a.r) a.centerToStart :=
      vdiv_eq_smul _ _
    rw [h1]
    have h2 : cross a.binormal (smul (1 / a.r) a.centerToStart) =
        smul (1 / a.r) (cross a.binormal a.centerToStart) := by
      apply Vec3.ext <;> simp [cross, smul] <;> ring
    rw [h2, vdiv_eq_smul]
  rw [hvhat]
  congr 1
  apply Vec3.ext <;> simp [add, smul, vdiv] <;> field_simp <;> ring

-- C3: the constructor does not validate the start direction.

/-- C3 counterexample.  With startDir equal to the zero vector and
otherwise valid inputs, both constructor asserts pass (the orthogonality
dot product is 0), so construction succeeds instead of failing. -/
theorem claim3_counterexample :
    Arc3D.make ⟨0, 0, 0⟩ ⟨1, 0, 0⟩ vzero 1 = some ⟨⟨0, 0, 0⟩, ⟨1, 0, 0⟩, vzero, 1⟩ := by
  unfold Arc3D.make
  rw [if_pos]
  constructor
  · have hsub : sub ⟨1, 0, 0⟩ ⟨0, 0, 0⟩ = (⟨1, 0, 0⟩ : Vec3) := by
      apply Vec3.ext <;> simp [sub]
    rw [hsub, norm_e1]
    exact one_pos
  · rw [dot_vzero_left]
    norm_num

/-- C3 as amended.  Arc3D construction never validates the length of
startDir: with the zero start direction and any start point distinct from
the center, both asserts pass and the constructor returns an object (whose
startTangent is a division by zero), for every sweep angle. -/
theorem claim3_amended (circleCenter startPoint : Vec3) (theta : ℝ)
    (h : startPoint ≠ circleCenter) :
    Arc3D.make circleCenter startPoint vzero theta =
      some ⟨circleCenter, startPoint, vzero, theta⟩ := by
  unfold Arc3D.make
  rw [if_pos]
  constructor
  · refine (norm_pos_iff _).mpr ?_
    intro hz
    exact h ((sub_eq_vzero_iff _ _).mp hz)
  · rw [dot_vzero_left]
    norm_num

/-- Witness for C3 as amended at center 0, start point (0,2,0), angle 5. -/
theorem claim3_witness :
    (⟨0, 2, 0⟩ : Vec3) ≠ ⟨0, 0, 0⟩ ∧
      Arc3D.make ⟨0, 0, 0⟩ ⟨0, 2, 0⟩ vzero 5 = some ⟨⟨0, 0, 0⟩, ⟨0, 2, 0⟩, vzero, 5⟩ := by
  have hne : (⟨0, 2, 0⟩ : Vec3) ≠ (⟨0, 0, 0⟩ : Vec3) := by
    intro h
    rw [Vec3.mk.injEq] at h
    exact two_ne_zero h.2.1
  exact ⟨hne, claim3_amended ⟨0, 0, 0⟩ ⟨0, 2, 0⟩ 5 hne⟩

-- C4: the concrete quarter arc of the spec.

theorem arc4_make :
    Arc3D.make ⟨0, 0, 0⟩ ⟨1, 0, 0⟩ ⟨0, 0, 1⟩ (Real.pi / 2) =
      some ⟨⟨0, 0, 0⟩, ⟨1, 0, 0⟩, ⟨0, 0, 1⟩, Real.pi / 2⟩ := by
  unfold Arc3D.make
  rw [if_pos]
  have hsub : sub ⟨1, 0, 0⟩ ⟨0, 0, 0⟩ = (⟨1, 0, 0⟩ : Vec3) := by
    apply Vec3.ext <;> simp [sub]
  constructor
  · rw [hsub, norm_e1]
    exact one_pos
  · rw [hsub]
    have hd : dot ⟨0, 0, 1⟩ ⟨1, 0, 0⟩ = (0 : ℝ) := by simp [dot]
    rw [hd]
    norm_num

theorem arc4_centerToStart :
    Arc3D.centerToStart ⟨⟨0, 0, 0⟩, ⟨1, 0, 0⟩, ⟨0, 0, 1⟩, Real.pi / 2⟩ = ⟨1, 0, 0⟩ := by
  show sub ⟨1, 0, 0⟩ ⟨0, 0, 0⟩ = (⟨1, 0, 0⟩ : Vec3)
  apply Vec3.ext <;> simp [sub]

theorem arc4_r : Arc3D.r ⟨⟨0, 0, 0⟩, ⟨1, 0, 0⟩, ⟨0, 0, 1⟩, Real.pi / 2⟩ = 1 := by
  rw [Arc3D.r, arc4_centerToStart, norm_e1]

theorem arc4_startNormal :
    Arc3D.startNormal ⟨⟨0, 0, 0⟩, ⟨1, 0, 0⟩, ⟨0, 0, 1⟩, Real.pi / 2⟩ = ⟨-1, 0, 0⟩ := by
  rw [Arc3D.startNormal, arc4_centerToStart, arc4_r, vdiv_one]
  apply Vec3.ext <;> simp [neg]

theorem arc4_binormal :
    Arc3D.binormal ⟨⟨0, 0, 0⟩, ⟨1, 0, 0⟩, ⟨0, 0, 1⟩, Real.pi / 2⟩ = ⟨0, -1, 0⟩ := by
  rw [Arc3D.binormal, arc4_startNormal]
  have ht : Arc3D.startTangent ⟨⟨0, 0, 0⟩, ⟨1, 0, 0⟩, ⟨0, 0, 1⟩, Real.pi / 2⟩ =
      ⟨0, 0, 1⟩ := by
    show vdiv ⟨0, 0, 1⟩ (norm ⟨0, 0, 1⟩) = (⟨0, 0, 1⟩ : Vec3)
    rw [norm_e3, vdiv_one]
  rw [ht]
  apply Vec3.ext <;> simp [cross]

theorem norm_neg_e2 : norm (⟨0, -1, 0⟩ : Vec3) = 1 := by
  simp [norm, dot]

theorem arc4_endPoint :
    Arc3D.endPoint ⟨⟨0, 0, 0⟩, ⟨1, 0, 0⟩, ⟨0, 0, 1⟩, Real.pi / 2⟩ = ⟨0, 0, 1⟩ := by
  have hw : smul (Real.pi / 2)
      (Arc3D.binormal ⟨⟨0, 0, 0⟩, ⟨1, 0, 0⟩, ⟨0, 0, 1⟩, Real.pi / 2⟩) =
      ⟨0, -(Real.pi / 2), 0⟩ := by
    rw [arc4_binormal]
    apply Vec3.ext <;> simp [smul]
  have hnw : norm (⟨0, -(Real.pi / 2), 0⟩ : Vec3) = Real.pi / 2 := by
    have h1 : dot ⟨0, -(Real.pi / 2), 0⟩ ⟨0, -(Real.pi / 2), 0⟩ =
        (Real.pi / 2) * (Real.pi / 2) := by
      simp [dot]
    rw [norm, h1, Real.sqrt_mul_self (by positivity)]
  have hk : vdiv ⟨0, -(Real.pi / 2), 0⟩ (Real.pi / 2) = (⟨0, -1, 0⟩ : Vec3) := by
    have hne : Real.pi / 2 ≠ 0 := by positivity
    apply Vec3.ext
    · simp [vdiv]
    · show -(Real.pi / 2) / (Real.pi / 2) = -1
      rw [neg_div, div_self hne]
    · simp [vdiv]
  show add ⟨0, 0, 0⟩ (Arc3D.centerToEnd ⟨⟨0, 0, 0⟩, ⟨1, 0, 0⟩, ⟨0, 0, 1⟩, Real.pi / 2⟩) =
    (⟨0, 0, 1⟩ : Vec3)
  rw [Arc3D.centerToEnd, hw, arc4_centerToStart]
  unfold rotvecApply
  rw [hnw, hk, Real.cos_pi_div_two, Real.sin_pi_div_two]
  apply Vec3.ext <;> simp [add, smul, cross, dot]

/-- C4 counterexample.  For the arc with center 0, start (1,0,0), start
direction (0,0,1) and sweep pi/2, the derived end point is (0,0,1): it is
at distance the square root of 2, beyond 1, from each of the two points
(0,1,0) and (0,-1,0) the spec predicts, so neither prediction is even
approximately attained. -/
theorem claim4_counterexample :
    Arc3D.make ⟨0, 0, 0⟩ ⟨1, 0, 0⟩ ⟨0, 0, 1⟩ (Real.pi / 2) =
        some ⟨⟨0, 0, 0⟩, ⟨1, 0, 0⟩, ⟨0, 0, 1⟩, Real.pi / 2⟩ ∧
      Arc3D.endPoint ⟨⟨0, 0, 0⟩, ⟨1, 0, 0⟩, ⟨0, 0, 1⟩, Real.pi / 2⟩ = ⟨0, 0, 1⟩ ∧
      norm (sub ⟨0, 0, 1⟩ ⟨0, 1, 0⟩) = Real.sqrt 2 ∧
      norm (sub ⟨0, 0, 1⟩ ⟨0, -1, 0⟩) = Real.sqrt 2 ∧
      1 < Real.sqrt 2 := by
  refine ⟨arc4_make, arc4_endPoint, ?_, ?_, ?_⟩
  · have h1 : sub ⟨0, 0, 1⟩ ⟨0, 1, 0⟩ = (⟨0, -1, 1⟩ : Vec3) := by
      apply Vec3.ext <;> simp [sub]
    rw [h1]
    have h2 : dot ⟨0, -1, 1⟩ ⟨0, -1, 1⟩ = (2 : ℝ) := by
      simp [dot]
      norm_num
    rw [norm, h2]
  · have h1 : sub ⟨0, 0, 1⟩ ⟨0, -1, 0⟩ = (⟨0, 1, 1⟩ : Vec3) := by
      apply Vec3.ext <;> simp [sub]
    rw [h1]
    have h2 : dot ⟨0, 1, 1⟩ ⟨0, 1, 1⟩ = (2 : ℝ) := by
      simp [dot]
      norm_num
    rw [norm, h2]
  · rw [show (1 : ℝ) = Real.sqrt 1 from Real.sqrt_one.symm]
    exact Real.sqrt_lt_sqrt (by norm_num) (by norm_num)

/-- C4 as amended.  For that same arc the end point is (0,0,1) (the arc
lies in the x-z plane, leaving (1,0,0) along the tangent (0,0,1)), and
interpolate 3 is a 3-point list starting exactly at (1,0,0) and ending
exactly at the end point (0,0,1). -/
theorem claim4_amended :
    Arc3D.make ⟨0, 0, 0⟩ ⟨1, 0, 0⟩ ⟨0, 0, 1⟩ (Real.pi / 2) =
        some ⟨⟨0, 0, 0⟩, ⟨1, 0, 0⟩, ⟨0, 0, 1⟩, Real.pi / 2⟩ ∧
      Arc3D.endPoint ⟨⟨0, 0, 0⟩, ⟨1, 0, 0⟩, ⟨0, 0, 1⟩, Real.pi / 2⟩ = ⟨0, 0, 1⟩ ∧
      (Arc3D.interpolate ⟨⟨0, 0, 0⟩, ⟨1, 0, 0⟩, ⟨0, 0, 1⟩, Real.pi / 2⟩ 3).length = 3 ∧
      (Arc3D.interpolate ⟨⟨0, 0, 0⟩, ⟨1, 0, 0⟩, ⟨0, 0, 1⟩, Real.pi / 2⟩ 3).head? =
        some ⟨1, 0, 0⟩ ∧
      (Arc3D.interpolate ⟨⟨0, 0, 0⟩, ⟨1, 0, 0⟩, ⟨0, 0, 1⟩, Real.pi / 2⟩ 3).getLast? =
        some ⟨0, 0, 1⟩ := by
  have hsp : (⟨1, 0, 0⟩ : Vec3) ≠ ⟨0, 0, 0⟩ := by
    intro h
    rw [Vec3.mk.injEq] at h
    exact one_ne_zero h.1
  have huh : Arc3D.uhat ⟨⟨0, 0, 0⟩, ⟨1, 0, 0⟩, ⟨0, 0, 1⟩, Real.pi / 2⟩ = ⟨1, 0, 0⟩ := by
    rw [Arc3D.uhat, arc4_startNormal]
    apply Vec3.ext <;> simp [neg]
  have hvh : Arc3D.vhat ⟨⟨0, 0, 0⟩, ⟨1, 0, 0⟩, ⟨0, 0, 1⟩, Real.pi / 2⟩ = ⟨0, 0, 1⟩ := by
    rw [Arc3D.vhat, arc4_binormal, huh]
    apply Vec3.ext <;> simp [cross]
  have hsp0 : Arc3D.samplePoint ⟨⟨0, 0, 0⟩, ⟨1, 0, 0⟩, ⟨0, 0, 1⟩, Real.pi / 2⟩ 0 =
      ⟨1, 0, 0⟩ := by
    unfold Arc3D.samplePoint
    rw [huh, hvh, arc4_r, Real.cos_zero, Real.sin_zero]
    apply Vec3.ext <;> simp [add, smul]
  have hspT : Arc3D.samplePoint ⟨⟨0, 0, 0⟩, ⟨1, 0, 0⟩, ⟨0, 0, 1⟩, Real.pi / 2⟩
      (Real.pi / 2) = ⟨0, 0, 1⟩ := by
    unfold Arc3D.samplePoint
    rw [huh, hvh, arc4_r, Real.cos_pi_div_two, Real.sin_pi_div_two]
    apply Vec3.ext <;> simp [add, smul]
  have hmap : Arc3D.interpolate ⟨⟨0, 0, 0⟩, ⟨1, 0, 0⟩, ⟨0, 0, 1⟩, Real.pi / 2⟩ 3 =
      (List.range 3).map
        (fun i : ℕ =>
          Arc3D.samplePoint ⟨⟨0, 0, 0⟩, ⟨1, 0, 0⟩, ⟨0, 0, 1⟩, Real.pi / 2⟩
            (Real.pi / 2 * (i : ℝ) / ((3 : ℝ) - 1))) := by
    show (linspace (Real.pi / 2) 3).map _ = _
    rw [linspace_eq _ 3 (by norm_num), List.map_map]
    rfl
  refine ⟨arc4_make, arc4_endPoint, ?_, ?_, ?_⟩
  · show ((linspace (Real.pi / 2) 3).map _).length = 3
    rw [List.length_map, linspace_length]
  · rw [hmap, range_map_head _ _ (by norm_num)]
    have h0 : Real.pi / 2 * ((0 : ℕ) : ℝ) / ((3 : ℝ) - 1) = 0 := by norm_num
    rw [h0, hsp0]
  · rw [hmap, range_map_getLast _ _ (by norm_num)]
    have h2 : Real.pi / 2 * (((3 - 1 : ℕ)) : ℝ) / ((3 : ℝ) - 1) = Real.pi / 2 := by
      norm_num
    rw [h2, hspT]

-- C5: the interpolation contract of Arc3D.

/-- C5 as amended.  For every arc whose start point differs from the
center and whose start direction is nonzero and exactly orthogonal to the
radius vector (not merely within the 1e-6 tolerance), and every count of
at least 2, interpolate returns exactly count points sampled at the equal
angular steps i theta / (count - 1) over the closed interval from 0 to
theta, with first sample exactly the start point and last sample exactly
the derived end point. -/
theorem claim5_amended (a : Arc3D) (count : ℕ)
    (hsp : a.startPoint ≠ a.circleCenter)
    (hsd : a.startDir ≠ vzero)
    (horth : dot a.startDir (sub a.startPoint a.circleCenter) = 0)
    (hc : 2 ≤ count) :
    (a.interpolate count).length = count ∧
      a.interpolate count =
        (List.range count).map
          (fun i : ℕ => a.samplePoint (a.theta * (i : ℝ) / ((count : ℝ) - 1))) ∧
      (a.interpolate count).head? = some a.startPoint ∧
      (a.interpolate count).getLast? = some a.endPoint := by
  have hmap : a.interpolate count =
      (List.range count).map
        (fun i : ℕ => a.samplePoint (a.theta * (i : ℝ) / ((count : ℝ) - 1))) := by
    show (linspace a.theta count).map _ = _
    rw [linspace_eq _ _ hc, List.map_map]
    rfl
  refine ⟨?_, hmap, ?_, ?_⟩
  · show ((linspace a.theta count).map _).length = count
    rw [List.length_map, linspace_length]
  · rw [hmap, range_map_head _ _ (by omega)]
    have h0 : a.theta * ((0 : ℕ) : ℝ) / ((count : ℝ) - 1) = 0 := by norm_num
    rw [h0, arc_sample_zero a hsp]
  · rw [hmap, range_map_getLast _ _ (by omega)]
    have hne : ((count : ℝ) - 1) ≠ 0 := by
      have h2 : (2 : ℝ) ≤ (count : ℝ) := by exact_mod_cast hc
      linarith
    have hlast : a.theta * (((count - 1 : ℕ)) : ℝ) / ((count : ℝ) - 1) = a.theta := by
      rw [Nat.cast_sub (by omega), Nat.cast_one]
      field_simp
    rw [hlast, arc_sample_theta a hsp hsd horth]

/-- Witness for C5 as amended: the half circle from (2,0,0) about the
origin with start direction (0,1,0) and sweep pi, sampled at 2 points. -/
theorem claim5_witness :
    (⟨2, 0, 0⟩ : Vec3) ≠ ⟨0, 0, 0⟩ ∧ (⟨0, 1, 0⟩ : Vec3) ≠ vzero ∧
      dot ⟨0, 1, 0⟩ (sub ⟨2, 0, 0⟩ ⟨0, 0, 0⟩) = 0 ∧
      (Arc3D.interpolate ⟨⟨0, 0, 0⟩, ⟨2, 0, 0⟩, ⟨0, 1, 0⟩, Real.pi⟩ 2).length = 2 ∧
      (Arc3D.interpolate ⟨⟨0, 0, 0⟩, ⟨2, 0, 0⟩, ⟨0, 1, 0⟩, Real.pi⟩ 2).head? =
        some ⟨2, 0, 0⟩ ∧
      (Arc3D.interpolate ⟨⟨0, 0, 0⟩, ⟨2, 0, 0⟩, ⟨0, 1, 0⟩, Real.pi⟩ 2).getLast? =
        some (Arc3D.endPoint ⟨⟨0, 0, 0⟩, ⟨2, 0, 0⟩, ⟨0, 1, 0⟩, Real.pi⟩) := by
  have h1 : (⟨2, 0, 0⟩ : Vec3) ≠ (⟨0, 0, 0⟩ : Vec3) := by
    intro h
    rw [Vec3.mk.injEq] at h
    exact two_ne_zero h.1
  have h2 : (⟨0, 1, 0⟩ : Vec3) ≠ vzero := by
    intro h
    rw [vzero, Vec3.mk.injEq] at h
    exact one_ne_zero h.2.1
  have h3 : dot ⟨0, 1, 0⟩ (sub ⟨2, 0, 0⟩ ⟨0, 0, 0⟩) = 0 := by
    simp [dot, sub]
  obtain ⟨ha, -, hb, hcl⟩ :=
    claim5_amended ⟨⟨0, 0, 0⟩, ⟨2, 0, 0⟩, ⟨0, 1, 0⟩, Real.pi⟩ 2 h1 h2 h3 (le_refl 2)
  exact ⟨h1, h2, h3, ha, hb, hcl⟩

/-- C5 counterexample.  The start direction (1e-7, 0, 1) passes the 1e-6
orthogonality tolerance but is not exactly orthogonal to the radius vector
(1,0,0), so the stored binormal is slightly shorter than unit; the scipy
rotation then sweeps by pi divided by the norm of (1e-7,0,1), not by pi.
With sweep pi and 2 samples, the last sample is exactly (-1,0,0) while the
derived end point has a strictly positive z coordinate, so the last sample
is not the end point. -/
theorem claim5_counterexample :
    Arc3D.make ⟨0, 0, 0⟩ ⟨1, 0, 0⟩ ⟨1 / 10000000, 0, 1⟩ Real.pi =
        some ⟨⟨0, 0, 0⟩, ⟨1, 0, 0⟩, ⟨1 / 10000000, 0, 1⟩, Real.pi⟩ ∧
      (Arc3D.interpolate ⟨⟨0, 0, 0⟩, ⟨1, 0, 0⟩, ⟨1 / 10000000, 0, 1⟩, Real.pi⟩ 2).length =
        2 ∧
      (Arc3D.interpolate ⟨⟨0, 0, 0⟩, ⟨1, 0, 0⟩, ⟨1 / 10000000, 0, 1⟩, Real.pi⟩ 2).getLast? =
        some ⟨-1, 0, 0⟩ ∧
      Arc3D.endPoint ⟨⟨0, 0, 0⟩, ⟨1, 0, 0⟩, ⟨1 / 10000000, 0, 1⟩, Real.pi⟩ ≠
        ⟨-1, 0, 0⟩ := by
  have hsub : sub ⟨1, 0, 0⟩ ⟨0, 0, 0⟩ = (⟨1, 0, 0⟩ : Vec3) := by
    apply Vec3.ext <;> simp [sub]
  have hs1 : 1 < norm ⟨1 / 10000000, 0, 1⟩ := by
    rw [norm]
    rw [Real.lt_sqrt (by norm_num)]
    norm_num [dot]
  have hs0 : (0 : ℝ) < norm ⟨1 / 10000000, 0, 1⟩ := lt_trans one_pos hs1
  have hsne : norm (⟨1 / 10000000, 0, 1⟩ : Vec3) ≠ 0 := ne_of_gt hs0
  have hc2s :
      Arc3D.centerToStart ⟨⟨0, 0, 0⟩, ⟨1, 0, 0⟩, ⟨1 / 10000000, 0, 1⟩, Real.pi⟩ =
        ⟨1, 0, 0⟩ := by
    show sub ⟨1, 0, 0⟩ ⟨0, 0, 0⟩ = (⟨1, 0, 0⟩ : Vec3)
    exact hsub
  have hr : Arc3D.r ⟨⟨0, 0, 0⟩, ⟨1, 0, 0⟩, ⟨1 / 10000000, 0, 1⟩, Real.pi⟩ = 1 := by
    rw [Arc3D.r, hc2s, norm_e1]
  have hsn :
      Arc3D.startNormal ⟨⟨0, 0, 0⟩, ⟨1, 0, 0⟩, ⟨1 / 10000000, 0, 1⟩, Real.pi⟩ =
        ⟨-1, 0, 0⟩ := by
    rw [Arc3D.startNormal, hc2s, hr, vdiv_one]
    apply Vec3.ext <;> simp [neg]
  have hbin :
      Arc3D.binormal ⟨⟨0, 0, 0⟩, ⟨1, 0, 0⟩, ⟨1 / 10000000, 0, 1⟩, Real.pi⟩ =
        ⟨0, -(1 / norm ⟨1 / 10000000, 0, 1⟩), 0⟩ := by
    rw [Arc3D.binormal, hsn]
    show cross (vdiv ⟨1 / 10000000, 0, 1⟩ (norm ⟨1 / 10000000, 0, 1⟩)) ⟨-1, 0, 0⟩ = _
    apply Vec3.ext <;> simp [cross, vdiv]
  -- the constructor accepts these inputs
  have hmk : Arc3D.make ⟨0, 0, 0⟩ ⟨1, 0, 0⟩ ⟨1 / 10000000, 0, 1⟩ Real.pi =
      some ⟨⟨0, 0, 0⟩, ⟨1, 0, 0⟩, ⟨1 / 10000000, 0, 1⟩, Real.pi⟩ := by
    unfold Arc3D.make
    rw [if_pos]
    constructor
    · rw [hsub, norm_e1]
      exact one_pos
    · rw [hsub]
      have hd : dot ⟨1 / 10000000, 0, 1⟩ ⟨1, 0, 0⟩ = (1 / 10000000 : ℝ) := by
        simp [dot]
      rw [hd, abs_of_pos (by norm_num)]
      norm_num
  -- the last of the 2 samples is exactly (-1, 0, 0)
  have huh : Arc3D.uhat ⟨⟨0, 0, 0⟩, ⟨1, 0, 0⟩, ⟨1 / 10000000, 0, 1⟩, Real.pi⟩ =
      ⟨1, 0, 0⟩ := by
    rw [Arc3D.uhat, hsn]
    apply Vec3.ext <;> simp [neg]
  have hspPi : Arc3D.samplePoint ⟨⟨0, 0, 0⟩, ⟨1, 0, 0⟩, ⟨1 / 10000000, 0, 1⟩, Real.pi⟩
      Real.pi = ⟨-1, 0, 0⟩ := by
    unfold Arc3D.samplePoint
    rw [huh, hr, Real.cos_pi, Real.sin_pi]
    apply Vec3.ext <;> simp [add, smul]
  have hmap : Arc3D.interpolate ⟨⟨0, 0, 0⟩, ⟨1, 0, 0⟩, ⟨1 / 10000000, 0, 1⟩, Real.pi⟩ 2 =
      (List.range 2).map
        (fun i : ℕ =>
          Arc3D.samplePoint ⟨⟨0, 0, 0⟩, ⟨1, 0, 0⟩, ⟨1 / 10000000, 0, 1⟩, Real.pi⟩
            (Real.pi * (i : ℝ) / ((2 : ℝ) - 1))) := by
    show (linspace Real.pi 2).map _ = _
    rw [linspace_eq _ 2 (le_refl 2), List.map_map]
    rfl
  -- the end point has positive z coordinate
  have hw : smul Real.pi
      (Arc3D.binormal ⟨⟨0, 0, 0⟩, ⟨1, 0, 0⟩, ⟨1 / 10000000, 0, 1⟩, Real.pi⟩) =
      ⟨0, -(Real.pi / norm ⟨1 / 10000000, 0, 1⟩), 0⟩ := by
    rw [hbin]
    apply Vec3.ext
    · simp [smul]
    · show Real.pi * -(1 / norm ⟨1 / 10000000, 0, 1⟩) =
        -(Real.pi / norm ⟨1 / 10000000, 0, 1⟩)
      ring
    · simp [smul]
  have hqpos : 0 < Real.pi / norm ⟨1 / 10000000, 0, 1⟩ := div_pos Real.pi_pos hs0
  have hnw : norm (⟨0, -(Real.pi / norm ⟨1 / 10000000, 0, 1⟩), 0⟩ : Vec3) =
      Real.pi / norm ⟨1 / 10000000, 0, 1⟩ := by
    have h1 : dot ⟨0, -(Real.pi / norm ⟨1 / 10000000, 0, 1⟩), 0⟩
        ⟨0, -(Real.pi / norm ⟨1 / 10000000, 0, 1⟩), 0⟩ =
        (Real.pi / norm ⟨1 / 10000000, 0, 1⟩) * (Real.pi / norm ⟨1 / 10000000, 0, 1⟩) := by
      simp [dot]
    rw [norm, h1, Real.sqrt_mul_self (le_of_lt hqpos)]
  have hk : vdiv ⟨0, -(Real.pi / norm ⟨1 / 10000000, 0, 1⟩), 0⟩
      (Real.pi / norm ⟨1 / 10000000, 0, 1⟩) = (⟨0, -1, 0⟩ : Vec3) := by
    have hne : Real.pi / norm ⟨1 / 10000000, 0, 1⟩ ≠ 0 := ne_of_gt hqpos
    apply Vec3.ext
    · simp [vdiv]
    · show -(Real.pi / norm ⟨1 / 10000000, 0, 1⟩) /
          (Real.pi / norm ⟨1 / 10000000, 0, 1⟩) = -1
      rw [neg_div, div_self hne]
    · simp [vdiv]
  have hend : Arc3D.endPoint ⟨⟨0, 0, 0⟩, ⟨1, 0, 0⟩, ⟨1 / 10000000, 0, 1⟩, Real.pi⟩ =
      ⟨Real.cos (Real.pi / norm ⟨1 / 10000000, 0, 1⟩), 0,
        Real.sin (Real.pi / norm ⟨1 / 10000000, 0, 1⟩)⟩ := by
    show add ⟨0, 0, 0⟩
        (Arc3D.centerToEnd ⟨⟨0, 0, 0⟩, ⟨1, 0, 0⟩, ⟨1 / 10000000, 0, 1⟩, Real.pi⟩) = _
    rw [Arc3D.centerToEnd, hw, hc2s]
    unfold rotvecApply
    rw [hnw, hk]
    apply Vec3.ext <;> simp [add, smul, cross, dot]
  refine ⟨hmk, ?_, ?_, ?_⟩
  · show ((linspace Real.pi 2).map _).length = 2
    rw [List.length_map, linspace_length]
  · rw [hmap, range_map_getLast _ _ (by norm_num)]
    have h2 : Real.pi * (((2 - 1 : ℕ)) : ℝ) / ((2 : ℝ) - 1) = Real.pi := by
      norm_num
    rw [h2, hspPi]
  · rw [hend]
    intro habs
    have hz := congrArg Vec3.z habs
    simp only at hz
    have hlt : Real.pi / norm ⟨1 / 10000000, 0, 1⟩ < Real.pi :=
      div_lt_self Real.pi_pos hs1
    exact absurd hz (ne_of_gt (Real.sin_pos_of_pos_of_lt_pi hqpos hlt))

end Geo
